import Mathlib

/-!
# Verification of the AFS (Assets File System) repository

Shallow embedding of `afs.go` (the runtime library) and `cmd/afs.go` (the
generator's codec side), with proofs of the specification's claims.

Modelling conventions:
* Go strings are modelled as Lean `String`s (lists of `Char`); byte values are
  modelled as `Nat` (with explicit `< 256` bounds where byte-ness matters).
  Go's `len` on the strings that occur here is the element count of the list.
* The concurrent fan-out/fan-in of `reload` is modelled by processing the
  registered descriptors sequentially in registration order: the Go channel
  delivers results in an arbitrary order, and registration order is one of the
  possible orders.  Go's map is modelled by a list of assets with unique names
  (`insertAsset` overwrites in place or appends).
* Iterating a Go map while inserting into it ("fill dirs") may skip the newly
  inserted entries; the model iterates exactly over the entries present when
  the loop starts, which is one of the behaviours Go permits.
* `compress/zlib` and `text/template` are external libraries: they enter the
  model as function parameters (`inflate`/`deflate`, `tmpl`).
-/

/-! ## Go `path.Clean` (identical to `filepath.Clean` on unix)

The char-level loop of Go's `path.Clean`, with the `lazybuf` output buffer
modelled as the list of characters appended so far.  The loop consumes at
least one input character per iteration, so an explicit fuel equal to the
input length makes the recursion structural (fuel never runs out; every lemma
carries the bound `input.length ≤ fuel`). -/

/-- The inner backtracking loop of the `..` case of Go `path.Clean`:
starting from write index `w`, step left while `w > dotdot` and the buffer
character at `w` is not a slash; returns the final write index. -/
def popW (c : List Char) (dotdot : Nat) : Nat → Nat
  | 0 => 0
  | w + 1 =>
    if dotdot < w + 1 ∧ c.get? (w + 1) ≠ some '/' then popW c dotdot w
    else w + 1

/-- The `..` ("can backtrack") case of Go `path.Clean`: `out.w--`, then the
backtracking loop, then truncate the buffer at the final write index. -/
def popSeg (dotdot : Nat) (out : List Char) : List Char :=
  out.take (popW out dotdot (out.length - 1))

/-- The main loop of Go `path.Clean` (`path/path.go`), one case per arm of
the Go `switch`; `out` is the output buffer, `dotdot` the backtrack floor.
`fuel` bounds the number of iterations (the Go loop runs while `r < n`, and
every iteration advances `r`, so `fuel = input.length` is always enough). -/
def cleanLoop (rooted : Bool) : Nat → Nat → List Char → List Char → List Char
  | _, _, out, [] => out
  | 0, _, out, _ :: _ => out
  | fuel + 1, dotdot, out, c :: rest =>
    if c = '/' then
      -- empty path element
      cleanLoop rooted fuel dotdot out rest
    else if c = '.' ∧ (rest = [] ∨ rest.head? = some '/') then
      -- . element
      cleanLoop rooted fuel dotdot out rest
    else if c = '.' ∧ rest.head? = some '.' ∧
        (rest.tail = [] ∨ rest.tail.head? = some '/') then
      -- .. element: remove to last /
      if dotdot < out.length then
        cleanLoop rooted fuel dotdot (popSeg dotdot out) rest.tail
      else if rooted = false then
        let out' := (if 0 < out.length then out ++ ['/'] else out) ++ ['.', '.']
        cleanLoop rooted fuel out'.length out' rest.tail
      else
        cleanLoop rooted fuel dotdot out rest.tail
    else
      -- real path element: add slash if needed, then copy the element
      let seg := (c :: rest).takeWhile (fun x => x ≠ '/')
      let out' :=
        if (rooted ∧ out.length ≠ 1) ∨ (rooted = false ∧ out.length ≠ 0) then
          out ++ '/' :: seg
        else
          out ++ seg
      cleanLoop rooted fuel dotdot out' ((c :: rest).dropWhile (fun x => x ≠ '/'))

/-- Go `path.Clean` on a list of characters: empty path cleans to `"."`;
a rooted path seeds the buffer with `'/'` and sets `dotdot = 1`; an empty
output buffer yields `"."`. -/
def cleanL : List Char → List Char
  | [] => ['.']
  | '/' :: rest =>
    let r := cleanLoop true rest.length 1 ['/'] rest
    if r = [] then ['.'] else r
  | c :: rest =>
    let r := cleanLoop false (c :: rest).length 0 [] (c :: rest)
    if r = [] then ['.'] else r

/-- Go `path.Clean` / `filepath.Clean` (unix) on strings. -/
def goClean (s : String) : String := String.mk (cleanL s.data)

/-- Go `strings.Join(elems, "/")`. -/
def joinSlash : List String → String
  | [] => ""
  | [e] => e
  | e :: rest => e ++ "/" ++ joinSlash rest

/-- Go `filepath.Join` (unix): skip leading empty elements, join the rest
with `"/"`, and `Clean` the result. -/
def goJoin : List String → String
  | [] => ""
  | e :: rest => if e = "" then goJoin rest else goClean (joinSlash (e :: rest))

/-- `fileNameClean` from `afs.go`:
`filepath.Clean(filepath.Join("/", name))`. -/
def fileNameClean (name : String) : String := goClean (goJoin ["/", name])

/-- The directory part of Go `path.Split`: the prefix of `p` up to and
including the last `'/'` (empty if there is no slash), i.e. `p[:i+1]` for
`i = strings.LastIndex(p, "/")`. -/
def splitDir : List Char → List Char
  | [] => []
  | c :: rest =>
    if '/' ∈ rest then c :: splitDir rest
    else if c = '/' then ['/'] else []

/-- Go `path.Dir`: `Clean` of the directory part of `Split`. -/
def goDir (p : String) : String := String.mk (cleanL (splitDir p.data))

/-! ### Canonical paths

The output shape of `cleanL` on rooted input: `"/"`, or `'/'`-separated
non-empty segments none of which is `"."` or `".."` and none of which
contains a slash. -/

/-- A valid path segment: non-empty, not `"."`, not `".."`, no slash. -/
def validSeg (s : List Char) : Prop :=
  s ≠ [] ∧ s ≠ ['.'] ∧ s ≠ ['.', '.'] ∧ '/' ∉ s

instance (s : List Char) : Decidable (validSeg s) := by
  unfold validSeg; infer_instance

/-- Join segments, each preceded by a slash: `segJoin [a, b] = "/a/b"`. -/
def segJoin (segs : List (List Char)) : List Char :=
  (segs.map (fun s => '/' :: s)).flatten

/-- The canonical rooted path with the given segments (`"/"` if none). -/
def canonOf (segs : List (List Char)) : List Char :=
  if segs = [] then ['/'] else segJoin segs

/-- A list of characters is a canonical rooted path. -/
def Canonical (q : List Char) : Prop :=
  ∃ segs, (∀ s ∈ segs, validSeg s) ∧ q = canonOf segs

example : cleanL "/a/b/../c//./".data = "/a/c".data := by decide
example : fileNameClean "foo/../bar" = "/bar" := by decide
example : fileNameClean "" = "/" := by decide
example : fileNameClean "/../.." = "/" := by decide
example : goDir "/a/b/c.txt" = "/a/b" := by decide
example : goDir "/a.txt" = "/" := by decide
example : goClean "abc/./d/.." = "abc" := by decide
example : goClean "../../x" = "../../x" := by decide
example : goClean "" = "." := by decide

/-! ### Basic facts about canonical paths -/

theorem segJoin_nil : segJoin [] = [] := rfl

theorem segJoin_cons (s : List Char) (rest : List (List Char)) :
    segJoin (s :: rest) = '/' :: (s ++ segJoin rest) := by
  simp [segJoin]

theorem segJoin_append (a b : List (List Char)) :
    segJoin (a ++ b) = segJoin a ++ segJoin b := by
  simp [segJoin]

theorem canonOf_nil : canonOf [] = ['/'] := rfl

theorem canonOf_cons (s : List Char) (rest : List (List Char)) :
    canonOf (s :: rest) = '/' :: (s ++ segJoin rest) := by
  simp [canonOf, segJoin_cons]

theorem canonOf_ne_nil (segs : List (List Char)) : canonOf segs ≠ [] := by
  cases segs with
  | nil => simp [canonOf]
  | cons s rest => simp [canonOf_cons]

theorem canonOf_head (segs : List (List Char)) :
    (canonOf segs).head? = some '/' := by
  cases segs with
  | nil => rfl
  | cons s rest => simp [canonOf_cons]

theorem canonOf_length_pos (segs : List (List Char)) : 0 < (canonOf segs).length := by
  cases segs with
  | nil => simp [canonOf]
  | cons s rest => simp [canonOf_cons]

theorem canonOf_length_one (segs : List (List Char))
    (h : ∀ s ∈ segs, validSeg s) :
    (canonOf segs).length = 1 ↔ segs = [] := by
  cases segs with
  | nil => simp [canonOf]
  | cons s rest =>
    have hs : s ≠ [] := (h s (by simp)).1
    have hp : 0 < s.length := List.length_pos.mpr hs
    constructor
    · intro hlen
      rw [canonOf_cons] at hlen
      simp only [List.length_cons, List.length_append] at hlen
      omega
    · intro hfalse
      simp at hfalse

theorem canonOf_append_cons (a b : List (List Char)) (s : List Char) :
    canonOf (a ++ s :: b) = segJoin a ++ '/' :: (s ++ segJoin b) := by
  have : a ++ s :: b ≠ [] := by simp
  simp [canonOf, this, segJoin_append, segJoin_cons]

/-! ### Popping the last segment -/

theorem popW_succ (c : List Char) (dd w : Nat) :
    popW c dd (w + 1) =
      if dd < w + 1 ∧ c.get? (w + 1) ≠ some '/' then popW c dd w else w + 1 := by
  rfl

theorem popW_descend (q : List Char) (dd m : Nat) :
    ∀ k, (∀ j, m < j → j ≤ m + k → dd < j ∧ q.get? j ≠ some '/') →
      popW q dd (m + k) = popW q dd m := by
  intro k
  induction k with
  | zero => intro _; rfl
  | succ k ih =>
    intro h
    have hm : m + (k + 1) = (m + k) + 1 := by omega
    have hcond := h (m + k + 1) (by omega) (by omega)
    rw [hm, popW_succ, if_pos ⟨hcond.1, hcond.2⟩]
    exact ih (fun j hj1 hj2 => h j hj1 (by omega))

theorem get?_append_right_cons (m s : List Char) (c : Char) :
    (m ++ c :: s).get? m.length = some c := by
  rw [List.get?_append_right (Nat.le_refl _)]
  simp

theorem get?_append_cons_right (m s : List Char) (c : Char) (i : Nat) :
    (m ++ c :: s).get? (m.length + 1 + i) = s.get? i := by
  rw [List.get?_append_right (by omega)]
  have : m.length + 1 + i - m.length = i + 1 := by omega
  rw [this]
  simp


theorem get?_ne_slash_of_not_mem (s : List Char) (h : '/' ∉ s) (i : Nat) :
    s.get? i ≠ some '/' := by
  cases hgi : s.get? i with
  | none => simp
  | some c =>
    have hc : c ∈ s := List.get?_mem hgi
    have : c ≠ '/' := fun he => h (he ▸ hc)
    simp [this]

/-- Auxiliary: popping along a trailing slash-free block `s` sitting after a
prefix `m ++ ['/']`, with floor `1 ≤ m.length + 1`. -/
theorem popW_block (m s : List Char) (hs : s ≠ []) (hslash : '/' ∉ s) :
    popW (m ++ '/' :: s) 1 (m.length + s.length) =
      popW (m ++ '/' :: s) 1 (m.length + 1) := by
  have hlen : 0 < s.length := List.length_pos.mpr hs
  have : m.length + s.length = (m.length + 1) + (s.length - 1) := by omega
  rw [this]
  apply popW_descend
  intro j hj1 hj2
  refine ⟨by omega, ?_⟩
  have hj : j = m.length + 1 + (j - m.length - 1) := by omega
  rw [hj, get?_append_cons_right]
  exact get?_ne_slash_of_not_mem s hslash _

/-- Popping the last segment of a canonical path with at least one segment
yields the canonical path of the remaining segments. -/
theorem popSeg_canon (segs : List (List Char)) (s : List Char)
    (hsegs : ∀ t ∈ segs, validSeg t) (hs : validSeg s) :
    popSeg 1 (canonOf (segs ++ [s])) = canonOf segs := by
  have hslen : 0 < s.length := List.length_pos.mpr hs.1
  cases segs with
  | nil =>
    -- the path is '/' :: s and popW stops at the floor 1
    have hq : canonOf ([] ++ [s]) = [] ++ '/' :: s := by
      simp [canonOf_cons, segJoin_nil]
    rw [popSeg, hq]
    have hlen : (([] : List Char) ++ '/' :: s).length - 1 =
        ([] : List Char).length + s.length := by
      simp
    rw [hlen, popW_block [] s hs.1 hs.2.2.2]
    have h1 : popW (([] : List Char) ++ '/' :: s) 1 (([] : List Char).length + 1) = 1 := by
      rw [show ([] : List Char).length + 1 = 0 + 1 from rfl, popW_succ, if_neg]
      intro hand
      omega
    rw [h1]
    rfl
  | cons t rest =>
    have hq : canonOf ((t :: rest) ++ [s]) = segJoin (t :: rest) ++ '/' :: s := by
      rw [canonOf_append_cons]
      simp [segJoin_nil, segJoin_cons]
    have htne : t ≠ [] := (hsegs t (by simp)).1
    have htlen : 0 < t.length := List.length_pos.mpr htne
    have hmlen : 2 ≤ (segJoin (t :: rest)).length := by
      rw [segJoin_cons]
      simp only [List.length_cons, List.length_append]
      omega
    rw [popSeg, hq]
    have hlen : (segJoin (t :: rest) ++ '/' :: s).length - 1 =
        (segJoin (t :: rest)).length + s.length := by
      simp only [List.length_append, List.length_cons]
      omega
    rw [hlen, popW_block _ s hs.1 hs.2.2.2]
    have h1 : popW (segJoin (t :: rest) ++ '/' :: s) 1 ((segJoin (t :: rest)).length + 1) =
        popW (segJoin (t :: rest) ++ '/' :: s) 1 (segJoin (t :: rest)).length := by
      rw [popW_succ, if_pos]
      refine ⟨by omega, ?_⟩
      have hj : (segJoin (t :: rest)).length + 1 = (segJoin (t :: rest)).length + 1 + 0 := by
        omega
      rw [hj, get?_append_cons_right]
      exact get?_ne_slash_of_not_mem s hs.2.2.2 0
    rw [h1]
    have h2 : popW (segJoin (t :: rest) ++ '/' :: s) 1 (segJoin (t :: rest)).length =
        (segJoin (t :: rest)).length := by
      have hme : (segJoin (t :: rest)).length = ((segJoin (t :: rest)).length - 1) + 1 := by
        omega
      rw [hme, popW_succ, if_neg]
      intro hand
      apply hand.2
      have : (segJoin (t :: rest)).length - 1 + 1 = (segJoin (t :: rest)).length := by omega
      rw [this, get?_append_right_cons]
    rw [h2]
    have h3 : (segJoin (t :: rest) ++ '/' :: s).take (segJoin (t :: rest)).length =
        segJoin (t :: rest) := by
      rw [List.take_append_of_le_length (Nat.le_refl _)]
      simp
    rw [h3, canonOf, if_neg (by simp)]

/-! ### The clean loop produces canonical paths (rooted case) -/

theorem takeWhile_eq_nil_head (rest : List Char) 
    (h : rest.takeWhile (fun x => x ≠ '/') = []) :
    rest = [] ∨ rest.head? = some '/' := by
  cases rest with
  | nil => exact Or.inl rfl
  | cons r rs =>
    right
    rw [List.takeWhile_cons] at h
    by_cases hr : r = '/'
    · simp [hr]
    · simp [hr] at h

theorem cleanLoop_default (rooted : Bool) (fuel dotdot : Nat) (out : List Char)
    (c : Char) (rest : List Char)
    (h1 : ¬ c = '/') (h2 : ¬ (c = '.' ∧ (rest = [] ∨ rest.head? = some '/')))
    (h3 : ¬ (c = '.' ∧ rest.head? = some '.' ∧
      (rest.tail = [] ∨ rest.tail.head? = some '/'))) :
    cleanLoop rooted (fuel + 1) dotdot out (c :: rest) =
      cleanLoop rooted fuel dotdot
        (if (rooted = true ∧ out.length ≠ 1) ∨ (rooted = false ∧ out.length ≠ 0) then
          out ++ '/' :: List.takeWhile (fun x => decide (x ≠ '/')) (c :: rest)
        else
          out ++ List.takeWhile (fun x => decide (x ≠ '/')) (c :: rest))
        (List.dropWhile (fun x => decide (x ≠ '/')) (c :: rest)) := by
  rw [cleanLoop, if_neg h1, if_neg h2, if_neg h3]

theorem cleanLoop_canon : ∀ (fuel : Nat) (inp : List Char) (segs : List (List Char)),
    inp.length ≤ fuel → (∀ s ∈ segs, validSeg s) →
    ∃ segs', (∀ s ∈ segs', validSeg s) ∧
      cleanLoop true fuel 1 (canonOf segs) inp = canonOf segs' := by
  intro fuel
  induction fuel with
  | zero =>
    intro inp segs hlen hsegs
    have : inp = [] := List.length_eq_zero.mp (Nat.le_zero.mp hlen)
    subst this
    exact ⟨segs, hsegs, rfl⟩
  | succ fuel ih =>
    intro inp segs hlen hsegs
    cases inp with
    | nil => exact ⟨segs, hsegs, rfl⟩
    | cons c rest =>
      have hrest : rest.length ≤ fuel := by
        simp only [List.length_cons] at hlen
        omega
      by_cases h1 : c = '/'
      · -- empty path element: skip the slash
        obtain ⟨segs', hv, he⟩ := ih rest segs hrest hsegs
        exact ⟨segs', hv, by rw [cleanLoop, if_pos h1, he]⟩
      · by_cases h2 : c = '.' ∧ (rest = [] ∨ rest.head? = some '/')
        · -- lone dot element: skip the dot
          obtain ⟨segs', hv, he⟩ := ih rest segs hrest hsegs
          exact ⟨segs', hv, by rw [cleanLoop, if_neg h1, if_pos h2, he]⟩
        · by_cases h3 : c = '.' ∧ rest.head? = some '.' ∧
              (rest.tail = [] ∨ rest.tail.head? = some '/')
          · -- dot-dot element
            have htail : rest.tail.length ≤ fuel := by
              have : rest.tail.length ≤ rest.length := by
                cases rest <;> simp
              omega
            by_cases hpop : 1 < (canonOf segs).length
            · -- can backtrack: pop the last segment
              have hne : segs ≠ [] := by
                intro hnil
                rw [hnil] at hpop
                simp [canonOf] at hpop
              obtain ⟨L, b, hLb⟩ := (List.eq_nil_or_concat segs).resolve_left hne
              rw [List.concat_eq_append] at hLb
              subst hLb
              have hL : ∀ s ∈ L, validSeg s := fun s hsm => hsegs s (by simp [hsm])
              have hb : validSeg b := hsegs b (by simp)
              obtain ⟨segs', hv, he⟩ := ih rest.tail L htail hL
              refine ⟨segs', hv, ?_⟩
              rw [cleanLoop, if_neg h1, if_neg h2, if_pos h3, if_pos hpop,
                popSeg_canon L b hL hb, he]
            · -- cannot backtrack and rooted: drop the dot-dot
              obtain ⟨segs', hv, he⟩ := ih rest.tail segs htail hsegs
              refine ⟨segs', hv, ?_⟩
              rw [cleanLoop, if_neg h1, if_neg h2, if_pos h3, if_neg hpop,
                if_neg (by simp), he]
          · -- real path element
            have hpc : decide (c ≠ '/') = true := by simp [h1]
            have hseg_eq : List.takeWhile (fun x => decide (x ≠ '/')) (c :: rest) =
                c :: List.takeWhile (fun x => decide (x ≠ '/')) rest := by
              rw [List.takeWhile_cons, if_pos hpc]
            have hdrop_eq : List.dropWhile (fun x => decide (x ≠ '/')) (c :: rest) =
                List.dropWhile (fun x => decide (x ≠ '/')) rest := by
              rw [List.dropWhile_cons, if_pos hpc]
            have hvseg : validSeg (List.takeWhile (fun x => decide (x ≠ '/')) (c :: rest)) := by
              refine ⟨by rw [hseg_eq]; simp, ?_, ?_, ?_⟩
              · intro hdot
                rw [hseg_eq] at hdot
                injection hdot with hc ht
                exact h2 ⟨hc, takeWhile_eq_nil_head rest ht⟩
              · intro hdd
                rw [hseg_eq] at hdd
                injection hdd with hc ht
                cases hr : rest with
                | nil => rw [hr] at ht; simp at ht
                | cons r rs =>
                  rw [hr, List.takeWhile_cons] at ht
                  by_cases hrd : r = '/'
                  · rw [if_neg (by simp [hrd])] at ht
                    exact absurd ht (by simp)
                  · rw [if_pos (by simp [hrd])] at ht
                    injection ht with hr1 hr2
                    apply h3
                    refine ⟨hc, by rw [hr, hr1]; rfl, ?_⟩
                    rw [hr]
                    simpa using takeWhile_eq_nil_head rs hr2
              · intro hmem
                have := List.mem_takeWhile_imp hmem
                simp at this
            have hdl : (List.dropWhile (fun x => decide (x ≠ '/')) rest).length ≤ fuel := by
              have := (List.dropWhile_sublist (l := rest)
                (p := fun x => decide (x ≠ '/'))).length_le
              omega
            obtain ⟨segs', hv, he⟩ :=
              ih (List.dropWhile (fun x => decide (x ≠ '/')) rest)
                (segs ++ [List.takeWhile (fun x => decide (x ≠ '/')) (c :: rest)]) hdl
                (by
                  intro s hsm
                  rcases List.mem_append.mp hsm with hml | hmr
                  · exact hsegs s hml
                  · rw [List.mem_singleton.mp hmr]
                    exact hvseg)
            refine ⟨segs', hv, ?_⟩
            rw [cleanLoop_default true fuel 1 (canonOf segs) c rest h1 h2 h3, hdrop_eq]
            by_cases hone : segs = []
            · -- the buffer is just "/": no separating slash is appended
              subst hone
              have hC : ¬ ((true = true ∧ (canonOf ([] : List (List Char))).length ≠ 1) ∨
                  (true = false ∧ (canonOf ([] : List (List Char))).length ≠ 0)) := by
                rintro (⟨_, hl⟩ | ⟨hf, _⟩)
                · exact hl rfl
                · exact absurd hf (by simp)
              rw [if_neg hC]
              have hout : canonOf ([] : List (List Char)) ++
                  List.takeWhile (fun x => decide (x ≠ '/')) (c :: rest) =
                  canonOf ([] ++ [List.takeWhile (fun x => decide (x ≠ '/')) (c :: rest)]) := by
                simp [canonOf_cons, segJoin_nil, canonOf_nil]
              rw [hout, he]
            · -- the buffer already holds a segment: a separating slash is appended
              have hlen1 : (canonOf segs).length ≠ 1 :=
                fun h => hone ((canonOf_length_one segs hsegs).mp h)
              rw [if_pos (Or.inl ⟨rfl, hlen1⟩)]
              have hout : canonOf segs ++
                  '/' :: List.takeWhile (fun x => decide (x ≠ '/')) (c :: rest) =
                  canonOf (segs ++ [List.takeWhile (fun x => decide (x ≠ '/')) (c :: rest)]) := by
                rw [canonOf_append_cons, canonOf, if_neg hone]
                simp [segJoin_nil]
              rw [hout, he]

/-! ### The clean loop is the identity on canonical input -/

theorem takeWhile_append_all (p : Char → Bool) :
    ∀ (a b : List Char), (∀ x ∈ a, p x = true) →
      List.takeWhile p (a ++ b) = a ++ List.takeWhile p b := by
  intro a
  induction a with
  | nil => intro b _; simp
  | cons x xs ih =>
    intro b h
    have hx : p x = true := h x (by simp)
    simp only [List.cons_append, List.takeWhile_cons, if_pos hx]
    rw [ih b (fun y hy => h y (by simp [hy]))]

theorem dropWhile_append_all (p : Char → Bool) :
    ∀ (a b : List Char), (∀ x ∈ a, p x = true) →
      List.dropWhile p (a ++ b) = List.dropWhile p b := by
  intro a
  induction a with
  | nil => intro b _; simp
  | cons x xs ih =>
    intro b h
    have hx : p x = true := h x (by simp)
    simp only [List.cons_append, List.dropWhile_cons, if_pos hx]
    exact ih b (fun y hy => h y (by simp [hy]))

theorem canonOf_push (acc : List (List Char)) (s : List Char)
    (hacc : ∀ t ∈ acc, validSeg t) :
    (if (true = true ∧ (canonOf acc).length ≠ 1) ∨
        (true = false ∧ (canonOf acc).length ≠ 0) then
      canonOf acc ++ '/' :: s
    else
      canonOf acc ++ s) = canonOf (acc ++ [s]) := by
  by_cases hone : acc = []
  · subst hone
    rw [if_neg]
    · simp [canonOf_cons, segJoin_nil, canonOf_nil]
    · rintro (⟨_, hl⟩ | ⟨hf, _⟩)
      · exact hl rfl
      · exact absurd hf (by simp)
  · have hlen1 : (canonOf acc).length ≠ 1 :=
      fun h => hone ((canonOf_length_one acc hacc).mp h)
    rw [if_pos (Or.inl ⟨rfl, hlen1⟩)]
    rw [canonOf_append_cons, canonOf, if_neg hone]
    simp [segJoin_nil]

/-- One iteration of the clean loop consumes a whole valid segment followed
by a slash (or the end of the input). -/
theorem cleanLoop_eat_seg (fuel : Nat) (acc : List (List Char)) (s suffix : List Char)
    (hs : validSeg s) (hacc : ∀ t ∈ acc, validSeg t)
    (hsuf : suffix = [] ∨ suffix.head? = some '/') :
    cleanLoop true (fuel + 1) 1 (canonOf acc) (s ++ suffix) =
      cleanLoop true fuel 1 (canonOf (acc ++ [s])) suffix := by
  obtain ⟨c, srest, rfl⟩ : ∃ c srest, s = c :: srest := by
    cases s with
    | nil => exact absurd rfl hs.1
    | cons c srest => exact ⟨c, srest, rfl⟩
  have hcs : c ∈ c :: srest := by simp
  have hcslash : c ≠ '/' := fun he => hs.2.2.2 (he ▸ hcs)
  have hsrest_slash : '/' ∉ srest := fun hm => hs.2.2.2 (by simp [hm])
  have h1 : ¬ c = '/' := hcslash
  have h2 : ¬ (c = '.' ∧ (srest ++ suffix = [] ∨ (srest ++ suffix).head? = some '/')) := by
    rintro ⟨hc, hrest⟩
    cases hsr : srest with
    | nil =>
      have : (c :: srest) = ['.'] := by rw [hc, hsr]
      exact hs.2.1 this
    | cons r rs =>
      rcases hrest with hemp | hhead
      · rw [hsr] at hemp
        simp at hemp
      · rw [hsr] at hhead
        simp at hhead
        exact hsrest_slash (by rw [hsr, hhead]; simp)
  have h3 : ¬ (c = '.' ∧ (srest ++ suffix).head? = some '.' ∧
      ((srest ++ suffix).tail = [] ∨ (srest ++ suffix).tail.head? = some '/')) := by
    rintro ⟨hc, hhead, htail3⟩
    cases hsr : srest with
    | nil =>
      rw [hsr] at hhead
      simp at hhead
      rcases hsuf with hemp | hsl
      · rw [hemp] at hhead; simp at hhead
      · rw [hhead] at hsl
        simp at hsl
    | cons r rs =>
      rw [hsr] at hhead
      simp at hhead
      cases hrs : rs with
      | nil =>
        apply hs.2.2.1
        rw [hc, hsr, hhead, hrs]
      | cons r2 rs2 =>
        -- r = '.', so srest = '.' :: r2 :: rs2 with no slash; but then the
        -- tail head is r2 ≠ '/', contradicting the third conjunct
        rcases htail3 with htl | hth
        · rw [hsr, hrs] at htl
          simp at htl
        · rw [hsr, hrs] at hth
          simp at hth
          exact hsrest_slash (by rw [hsr, hrs, hth]; simp)
  have hall : ∀ x ∈ c :: srest, (fun y => decide (y ≠ '/')) x = true := by
    intro x hx
    have : x ≠ '/' := fun he => hs.2.2.2 (he ▸ hx)
    simp [this]
  have htw : List.takeWhile (fun y => decide (y ≠ '/')) (c :: (srest ++ suffix)) =
      c :: (srest ++ List.takeWhile (fun y => decide (y ≠ '/')) suffix) := by
    have := takeWhile_append_all (fun y => decide (y ≠ '/')) (c :: srest) suffix hall
    simpa using this
  have htw0 : List.takeWhile (fun y => decide (y ≠ '/')) suffix = [] := by
    rcases hsuf with hemp | hsl
    · rw [hemp]; rfl
    · cases suffix with
      | nil => rfl
      | cons u us =>
        simp at hsl
        rw [List.takeWhile_cons, if_neg (by simp [hsl])]
  have hdw : List.dropWhile (fun y => decide (y ≠ '/')) (c :: (srest ++ suffix)) =
      suffix := by
    have hbase : List.dropWhile (fun y => decide (y ≠ '/')) suffix = suffix := by
      rcases hsuf with hemp | hsl
      · rw [hemp]; rfl
      · cases suffix with
        | nil => rfl
        | cons u us =>
          simp at hsl
          rw [List.dropWhile_cons, if_neg (by simp [hsl])]
    have := dropWhile_append_all (fun y => decide (y ≠ '/')) (c :: srest) suffix hall
    rw [hbase] at this
    simpa using this
  have hstep := cleanLoop_default true fuel 1 (canonOf acc) c (srest ++ suffix) h1 h2 h3
  rw [List.cons_append, hstep]
  rw [htw, htw0, List.append_nil, hdw, canonOf_push acc (c :: srest) hacc]

/-- Running the clean loop over a list of valid segments separated by single
slashes appends those segments to the accumulator. -/
theorem cleanLoop_segs : ∀ (segs : List (List Char)) (acc : List (List Char))
    (s : List Char) (fuel : Nat),
    (∀ t ∈ acc, validSeg t) → validSeg s → (∀ t ∈ segs, validSeg t) →
    (s ++ segJoin segs).length ≤ fuel →
    cleanLoop true fuel 1 (canonOf acc) (s ++ segJoin segs) =
      canonOf (acc ++ s :: segs) := by
  intro segs
  induction segs with
  | nil =>
    intro acc s fuel hacc hs _ hf
    have hslen : 0 < s.length := List.length_pos.mpr hs.1
    rw [segJoin_nil, List.append_nil] at hf
    cases fuel with
    | zero => omega
    | succ f =>
      rw [segJoin_nil]
      rw [cleanLoop_eat_seg f acc s [] hs hacc (Or.inl rfl)]
      cases f <;> rfl
  | cons t rest ih =>
    intro acc s fuel hacc hs hsegs hf
    have hslen : 0 < s.length := List.length_pos.mpr hs.1
    have htv : validSeg t := hsegs t (by simp)
    have hrestv : ∀ u ∈ rest, validSeg u := fun u hu => hsegs u (by simp [hu])
    rw [segJoin_cons] at hf ⊢
    have hflen : s.length + (1 + (t.length + (segJoin rest).length)) ≤ fuel := by
      simp only [List.length_append, List.length_cons] at hf
      omega
    cases fuel with
    | zero => omega
    | succ f =>
      rw [cleanLoop_eat_seg f acc s ('/' :: (t ++ segJoin rest)) hs hacc (by simp)]
      cases f with
      | zero => omega
      | succ f2 =>
        rw [cleanLoop, if_pos rfl]
        have hih := ih (acc ++ [s]) t f2
          (by
            intro u hu
            rcases List.mem_append.mp hu with hl | hr
            · exact hacc u hl
            · rw [List.mem_singleton.mp hr]; exact hs)
          htv hrestv
          (by
            simp only [List.length_append] at hflen ⊢
            omega)
        rw [hih]
        simp

theorem cleanLoop_nil_input (rooted : Bool) (fuel dd : Nat) (out : List Char) :
    cleanLoop rooted fuel dd out [] = out := by
  cases fuel <;> rfl

theorem cleanL_rooted (xs : List Char) : cleanL ('/' :: xs) =
    (if cleanLoop true xs.length 1 ['/'] xs = [] then ['.']
     else cleanLoop true xs.length 1 ['/'] xs) := rfl

/-- Cleaning any rooted path yields a canonical path. -/
theorem cleanL_rooted_canonical (xs : List Char) : Canonical (cleanL ('/' :: xs)) := by
  obtain ⟨segs', hv, he⟩ :=
    cleanLoop_canon xs.length xs [] (Nat.le_refl _) (by intro s hs; simp at hs)
  rw [canonOf_nil] at he
  rw [cleanL_rooted, he, if_neg (canonOf_ne_nil segs')]
  exact ⟨segs', hv, rfl⟩

/-- Cleaning a canonical path returns it unchanged; more generally the clean
loop started on the tail of a canonical path (after any number of extra
leading slashes) rebuilds exactly that path. -/
theorem cleanLoop_canon_tail (segs : List (List Char)) (fuel : Nat)
    (hsegs : ∀ t ∈ segs, validSeg t) (hf : (segJoin segs).length ≤ fuel + 1) :
    cleanLoop true (fuel + 1) 1 ['/'] (segJoin segs) = canonOf segs := by
  cases segs with
  | nil => rw [segJoin_nil, cleanLoop_nil_input, canonOf_nil]
  | cons t rest =>
    rw [segJoin_cons] at hf ⊢
    rw [cleanLoop, if_pos rfl]
    have h := cleanLoop_segs rest [] t fuel (by intro u hu; simp at hu)
      (hsegs t (by simp)) (fun u hu => hsegs u (by simp [hu]))
      (by
        simp only [List.length_cons, List.length_append] at hf ⊢
        omega)
    rw [canonOf_nil] at h
    rw [List.nil_append] at h
    rw [h]

/-- `cleanL` is the identity on canonical paths. -/
theorem cleanL_canonical_id (q : List Char) (hq : Canonical q) : cleanL q = q := by
  obtain ⟨segs, hv, rfl⟩ := hq
  cases segs with
  | nil => decide
  | cons t rest =>
    rw [canonOf_cons, cleanL_rooted]
    have hrun := cleanLoop_segs rest [] t (t ++ segJoin rest).length
      (by intro u hu; simp at hu) (hv t (by simp)) (fun u hu => hv u (by simp [hu]))
      (Nat.le_refl _)
    rw [canonOf_nil, List.nil_append] at hrun
    rw [hrun, if_neg (canonOf_ne_nil _)]
    exact canonOf_cons t rest

theorem strMk_data (s : String) : String.mk s.data = s := by
  cases s
  rfl

theorem data_mk (l : List Char) : (String.mk l).data = l := rfl

/-- The two-string case of Go `strings.Join`. -/
theorem joinSlash_pair (a b : String) : joinSlash [a, b] = a ++ "/" ++ b := rfl

theorem fileNameClean_eq (name : String) :
    fileNameClean name = goClean (goClean (String.mk ('/' :: '/' :: name.data))) := by
  have h1 : goJoin ["/", name] = goClean (String.mk ('/' :: '/' :: name.data)) := by
    rw [goJoin, if_neg (by decide), joinSlash_pair]
    congr 1
  rw [fileNameClean, h1]

/-- Cleaning `"//" ++ q` for canonical `q` gives back `q`. -/
theorem cleanL_two_slashes (q : List Char) (hq : Canonical q) :
    cleanL ('/' :: '/' :: q) = q := by
  obtain ⟨segs, hv, rfl⟩ := hq
  rw [cleanL_rooted]
  have hstep : cleanLoop true ('/' :: canonOf segs).length 1 ['/'] ('/' :: canonOf segs) =
      cleanLoop true (canonOf segs).length 1 ['/'] (canonOf segs) := by
    rw [List.length_cons, cleanLoop, if_pos rfl]
  rw [hstep]
  cases segs with
  | nil => decide
  | cons t rest =>
    have hlen : 0 < (canonOf (t :: rest)).length := canonOf_length_pos _
    have hcform : canonOf (t :: rest) = segJoin (t :: rest) := by
      rw [canonOf, if_neg (by simp)]
    obtain ⟨n, hn⟩ : ∃ n, (canonOf (t :: rest)).length = n + 1 :=
      ⟨(canonOf (t :: rest)).length - 1, by omega⟩
    rw [hn]
    rw [hcform] at hn ⊢
    have := cleanLoop_canon_tail (t :: rest) n hv (by omega)
    rw [this, hcform, if_neg]
    rw [← hcform]
    exact canonOf_ne_nil _

/-- `fileNameClean` always returns a canonical rooted path. -/
theorem fileNameClean_canonical (name : String) :
    Canonical (fileNameClean name).data := by
  rw [fileNameClean_eq]
  have hinner : Canonical (goClean (String.mk ('/' :: '/' :: name.data))).data := by
    rw [goClean, data_mk, data_mk]
    exact cleanL_rooted_canonical ('/' :: name.data)
  rw [goClean, data_mk]
  rw [cleanL_canonical_id _ hinner]
  exact hinner

/-- `fileNameClean` is the identity on strings whose characters form a
canonical rooted path. -/
theorem fileNameClean_of_canonical (q : String) (hq : Canonical q.data) :
    fileNameClean q = q := by
  rw [fileNameClean_eq]
  have hinner : goClean (String.mk ('/' :: '/' :: q.data)) = q := by
    rw [goClean, data_mk, cleanL_two_slashes q.data hq, strMk_data]
  rw [hinner, goClean, cleanL_canonical_id q.data hq, strMk_data]

/-- C8: path normalization is idempotent:
`fileNameClean (fileNameClean p) = fileNameClean p` for every string `p`. -/
theorem fileNameClean_idempotent (p : String) :
    fileNameClean (fileNameClean p) = fileNameClean p :=
  fileNameClean_of_canonical (fileNameClean p) (fileNameClean_canonical p)

/-! ## Base64 (Go `encoding/base64`, `StdEncoding`)

Standard alphabet with `'='` padding.  (Go's decoder additionally skips CR/LF
characters inside the input; no encoder output and no claim depends on that,
so it is not modelled.) -/

def b64Alphabet : List Char :=
  ['A', 'B', 'C', 'D', 'E', 'F', 'G', 'H', 'I', 'J', 'K', 'L', 'M',
   'N', 'O', 'P', 'Q', 'R', 'S', 'T', 'U', 'V', 'W', 'X', 'Y', 'Z',
   'a', 'b', 'c', 'd', 'e', 'f', 'g', 'h', 'i', 'j', 'k', 'l', 'm',
   'n', 'o', 'p', 'q', 'r', 's', 't', 'u', 'v', 'w', 'x', 'y', 'z',
   '0', '1', '2', '3', '4', '5', '6', '7', '8', '9', '+', '/']

/-- The character for a six-bit group. -/
def b64Char (n : Nat) : Char := b64Alphabet.getD n 'A'

def b64IndexAux : List Char → Char → Nat → Option Nat
  | [], _, _ => none
  | a :: rest, c, i => if c = a then some i else b64IndexAux rest c (i + 1)

/-- The six-bit value of an alphabet character (`none` for anything else). -/
def b64Index (c : Char) : Option Nat := b64IndexAux b64Alphabet c 0

/-- Go `base64.StdEncoding.EncodeToString` on a byte list: three bytes become
four characters; a final group of one or two bytes is padded with `'='`. -/
def b64encode : List Nat → List Char
  | [] => []
  | [b1] => [b64Char (b1 / 4), b64Char (b1 % 4 * 16), '=', '=']
  | [b1, b2] =>
    [b64Char (b1 / 4), b64Char (b1 % 4 * 16 + b2 / 16), b64Char (b2 % 16 * 4), '=']
  | b1 :: b2 :: b3 :: rest =>
    b64Char (b1 / 4) :: b64Char (b1 % 4 * 16 + b2 / 16) ::
      b64Char (b2 % 16 * 4 + b3 / 64) :: b64Char (b3 % 64) :: b64encode rest

/-- Go `base64.StdEncoding.DecodeString`: input length must be a multiple of
four, characters must come from the alphabet, `'='` padding is only accepted
in the final quantum; trailing six-bit remainder bits are not checked
(StdEncoding is non-strict). -/
def b64decode : List Char → Option (List Nat)
  | [] => some []
  | c1 :: c2 :: c3 :: c4 :: rest =>
    match b64Index c1, b64Index c2 with
    | some s1, some s2 =>
      if c3 = '=' then
        if c4 = '=' ∧ rest = [] then some [s1 * 4 + s2 / 16] else none
      else
        match b64Index c3 with
        | some s3 =>
          if c4 = '=' then
            if rest = [] then some [s1 * 4 + s2 / 16, s2 % 16 * 16 + s3 / 4] else none
          else
            match b64Index c4, b64decode rest with
            | some s4, some bs =>
              some ((s1 * 4 + s2 / 16) :: (s2 % 16 * 16 + s3 / 4) ::
                (s3 % 4 * 64 + s4) :: bs)
            | _, _ => none
        | none => none
    | _, _ => none
  | _ => none

example : b64decode "aGk=".data = some [104, 105] := by decide
example : b64decode "IyBIaSBjdXN0b20gYXNzZXQh".data =
    some ("# Hi custom asset!".data.map Char.toNat) := by decide
example : b64decode "!".data = none := by decide
example : b64decode (b64encode [0, 255, 17]) = some [0, 255, 17] := by decide

theorem b64Index_b64Char : ∀ s, s < 64 → b64Index (b64Char s) = some s := by decide

theorem b64Char_ne_pad : ∀ s, s < 64 → b64Char s ≠ '=' := by decide

/-- Base64 round trip on byte lists. -/
theorem b64_roundtrip : ∀ bs : List Nat, (∀ b ∈ bs, b < 256) →
    b64decode (b64encode bs) = some bs := by
  intro bs
  induction bs using b64encode.induct with
  | case1 =>
    intro _
    rfl
  | case2 b1 =>
    intro hb
    have h1 : b1 < 256 := hb b1 (by simp)
    have e1 : b64Index (b64Char (b1 / 4)) = some (b1 / 4) :=
      b64Index_b64Char _ (by omega)
    have e2 : b64Index (b64Char (b1 % 4 * 16)) = some (b1 % 4 * 16) :=
      b64Index_b64Char _ (by omega)
    simp only [b64encode, b64decode, e1, e2]
    simp
    omega
  | case3 b1 b2 =>
    intro hb
    have h1 : b1 < 256 := hb b1 (by simp)
    have h2 : b2 < 256 := hb b2 (by simp)
    have e1 : b64Index (b64Char (b1 / 4)) = some (b1 / 4) :=
      b64Index_b64Char _ (by omega)
    have e2 : b64Index (b64Char (b1 % 4 * 16 + b2 / 16)) =
        some (b1 % 4 * 16 + b2 / 16) := b64Index_b64Char _ (by omega)
    have e3 : b64Index (b64Char (b2 % 16 * 4)) = some (b2 % 16 * 4) :=
      b64Index_b64Char _ (by omega)
    have hne : ¬ (b64Char (b2 % 16 * 4) = '=') := b64Char_ne_pad _ (by omega)
    simp only [b64encode, b64decode, e1, e2, e3]
    simp [hne]
    omega
  | case4 b1 b2 b3 rest ih =>
    intro hb
    have h1 : b1 < 256 := hb b1 (by simp)
    have h2 : b2 < 256 := hb b2 (by simp)
    have h3 : b3 < 256 := hb b3 (by simp)
    have hrest : ∀ b ∈ rest, b < 256 := fun b hm => hb b (by simp [hm])
    have e1 : b64Index (b64Char (b1 / 4)) = some (b1 / 4) :=
      b64Index_b64Char _ (by omega)
    have e2 : b64Index (b64Char (b1 % 4 * 16 + b2 / 16)) =
        some (b1 % 4 * 16 + b2 / 16) := b64Index_b64Char _ (by omega)
    have e3 : b64Index (b64Char (b2 % 16 * 4 + b3 / 64)) =
        some (b2 % 16 * 4 + b3 / 64) := b64Index_b64Char _ (by omega)
    have e4 : b64Index (b64Char (b3 % 64)) = some (b3 % 64) :=
      b64Index_b64Char _ (by omega)
    have hne3 : ¬ (b64Char (b2 % 16 * 4 + b3 / 64) = '=') :=
      b64Char_ne_pad _ (by omega)
    have hne4 : ¬ (b64Char (b3 % 64) = '=') := b64Char_ne_pad _ (by omega)
    simp only [b64encode, b64decode, e1, e2, e3, e4, ih hrest]
    simp [hne3, hne4]
    refine ⟨by omega, by omega, by omega⟩

/-! ## The AFS data model (`afs.go`)

`content` is a Go string; each `Char` of the model stands for one byte, so
Go's `len` (bytes) is the model's `String.length`.  `pos` models the read
offset of the `strings.Reader` installed in the asset's single embedded
`io.ReadSeeker` field by `Open` (`0` for the initial nil reader). -/

instance {e a : Type} [DecidableEq e] [DecidableEq a] : DecidableEq (Except e a) :=
  fun x y =>
    match x, y with
    | Except.error u, Except.error v =>
      if h : u = v then isTrue (by rw [h]) else
        isFalse (fun hc => h (by injection hc))
    | Except.ok u, Except.ok v =>
      if h : u = v then isTrue (by rw [h]) else
        isFalse (fun hc => h (by injection hc))
    | Except.error _, Except.ok _ => isFalse (fun hc => Except.noConfusion hc)
    | Except.ok _, Except.error _ => isFalse (fun hc => Except.noConfusion hc)

/-- Bytes to Go string (`string(b)` for single-byte characters). -/
def strOfBytes (bs : List Nat) : String := String.mk (bs.map Char.ofNat)

/-- An asset as registered: the exported fields of `Asset` set by producers. -/
structure RegAsset where
  AName : String
  Base64 : String
  NoZLib : Bool
deriving Repr, DecidableEq

/-- A materialized asset: the fields of `Asset` as held in a snapshot. -/
structure MAsset where
  AName : String
  isDir : Bool
  content : String
  size : Nat
  pos : Nat
deriving Repr, DecidableEq

/-- The snapshot map `afs.assets`, as a list keyed by `AName` in Go
map-insertion order.  Lookup finds the entry with the given key. -/
def lookupA (l : List MAsset) (name : String) : Option MAsset :=
  l.find? (fun a => a.AName = name)

/-- Go map insert: overwrite the entry with the same key, else append. -/
def insertA (l : List MAsset) (a : MAsset) : List MAsset :=
  if l.any (fun b => b.AName = a.AName) then
    l.map (fun b => if b.AName = a.AName then a else b)
  else
    l ++ [a]

/-- `(*AFS).asset`: normalize the name, look it up, `os.ErrNotExist` on a
miss. -/
def afsAsset (assets : List MAsset) (name : String) : Except String MAsset :=
  match lookupA assets (fileNameClean name) with
  | none => Except.error "file does not exist"
  | some a => Except.ok a

/-- `(*AFS).Belong`: existence after normalization. -/
def belong (assets : List MAsset) (name : String) : Bool :=
  (lookupA assets (fileNameClean name)).isSome

/-- The whole process state: the package-global registered `assets` slice
and the `AFS` snapshot (`nil`/empty before the first successful reload). -/
structure AFSState where
  registry : List RegAsset
  assets : List MAsset
deriving Repr, DecidableEq

/-- Decode one registered asset (the per-descriptor goroutine body of
`reload`): normalize the name, base64-decode (`CodecError` on failure),
then, unless `NoZLib`, run zlib inflation.  `compress/zlib` is an external
library and enters the model as the `inflate` parameter; its two error paths
(`zlib.NewReader` and `io.Copy`) are collapsed into `inflate`'s error. -/
def decodeAsset (inflate : List Nat → Except String (List Nat)) (a : RegAsset) :
    Except String MAsset :=
  let name := fileNameClean a.AName
  match b64decode a.Base64.data with
  | none => Except.error ("decode asset " ++ name)
  | some b64 =>
    if a.NoZLib then
      Except.ok { AName := name, isDir := false, content := strOfBytes b64,
                  size := b64.length, pos := 0 }
    else
      match inflate b64 with
      | Except.error e => Except.error ("zlib asset " ++ name ++ ": " ++ e)
      | Except.ok raw =>
        Except.ok { AName := name, isDir := false, content := strOfBytes raw,
                    size := raw.length, pos := 0 }

/-- The collector loop of `reload`: the fresh map `afs.assets` receives each
decoded asset; the first failure stops collection and is returned.  The Go
channel delivers completions in an arbitrary order; the model processes the
descriptors sequentially in registration order (one of the possible
orders). -/
def collect (inflate : List Nat → Except String (List Nat)) :
    List RegAsset → List MAsset → List MAsset × Option String
  | [], acc => (acc, none)
  | r :: rest, acc =>
    match decodeAsset inflate r with
    | Except.error e => (acc, some ("asf: " ++ e))
    | Except.ok a => collect inflate rest (insertA acc a)

/-- The synthetic directory entry inserted by the "fill dirs" pass:
`&Asset{AName: dir, isDir: true, content: dir, size: int64(len(dir))}`. -/
def mkDirAsset (dir : String) : MAsset :=
  { AName := dir, isDir := true, content := dir, size := dir.length, pos := 0 }

/-- The "fill dirs" loop body over the entries `todo`, inserting a parent
directory for each entry whose `path.Dir` does not yet `Belong`. -/
def fillDirsAux : List MAsset → List MAsset → List MAsset
  | [], acc => acc
  | a :: todo, acc =>
    if belong acc (goDir a.AName) then fillDirsAux todo acc
    else fillDirsAux todo (acc ++ [mkDirAsset (goDir a.AName)])

/-- The "fill dirs" pass of `reload`: iterate over the map while inserting
into it.  Go's map iteration may or may not visit entries inserted during
the iteration; the model iterates exactly over the entries present when the
pass starts (one of the behaviours the Go specification permits). -/
def fillDirs (l : List MAsset) : List MAsset := fillDirsAux l l

/-- `(*AFS).reload`: empty-registry check, then the map `afs.assets` is
replaced by a fresh map that receives the decoded assets; an error during
collection returns with the partially filled map installed; on success the
directory pass runs. -/
def reload (inflate : List Nat → Except String (List Nat)) (st : AFSState) :
    AFSState × Option String :=
  if st.registry.isEmpty then (st, some "afs: no fs data registered")
  else
    match collect inflate st.registry [] with
    | (acc, some e) => ({ st with assets := acc }, some e)
    | (acc, none) => ({ st with assets := fillDirs acc }, none)

/-- `(*AFS).Open`: find the asset, install a fresh `strings.Reader` over its
content in the asset's single embedded reader field (modelled by resetting
the shared `pos`), and return the asset itself.  The handle is the canonical
name: the Go code returns a pointer into the snapshot map, so every handle
for the same name aliases the same `Asset`. -/
def openAFS (assets : List MAsset) (name : String) :
    List MAsset × Except String String :=
  match afsAsset assets name with
  | Except.error e => (assets, Except.error ("afs: open file: " ++ e))
  | Except.ok a => (insertA assets { a with pos := 0 }, Except.ok a.AName)

/-- Reading `n` bytes through a handle: `strings.Reader.Read` on the
asset's shared embedded reader, advancing its position. -/
def readH (assets : List MAsset) (h : String) (n : Nat) :
    List MAsset × List Char :=
  match lookupA assets h with
  | none => (assets, [])
  | some a =>
    let bytes := (a.content.data.drop a.pos).take n
    (insertA assets { a with pos := a.pos + bytes.length }, bytes)

/-- The read position currently observed through a handle. -/
def posH (assets : List MAsset) (h : String) : Nat :=
  match lookupA assets h with
  | none => 0
  | some a => a.pos

/-- One iteration of `(*AFS).ExecTemplate` for a single name.  `tmpl` stands
for `text/template`'s `Parse` + `Execute` with the caller's `data`; both its
failure modes surface as `tmpl`'s error.  On success the asset's `content`
and `size` are overwritten in place in the snapshot. -/
def stepTemplate (tmpl : String → String → Except String String)
    (assets : List MAsset) (name : String) : Except String (List MAsset) :=
  match afsAsset assets name with
  | Except.error e => Except.error ("afs: exec template: find asset: " ++ e)
  | Except.ok a =>
    if a.isDir then Except.error "afs: exec template: asset is dir"
    else
      match tmpl name a.content with
      | Except.error e => Except.error ("afs: exec template: " ++ e)
      | Except.ok out =>
        Except.ok (insertA assets { a with content := out, size := out.length })

/-- `(*AFS).ExecTemplate` over a list of names: left to right, stopping at
the first failure; assets already templated stay templated. -/
def execTemplate (tmpl : String → String → Except String String) :
    List String → List MAsset → List MAsset × Option String
  | [], assets => (assets, none)
  | n :: rest, assets =>
    match stepTemplate tmpl assets n with
    | Except.error e => (assets, some e)
    | Except.ok assets' => execTemplate tmpl rest assets'

/-- `ExecTemplate` on the full process state: only the snapshot changes
("Attention! No update registered assets."). -/
def execTemplateS (tmpl : String → String → Except String String)
    (names : List String) (st : AFSState) : AFSState × Option String :=
  (({ st with assets := (execTemplate tmpl names st.assets).1 }),
    (execTemplate tmpl names st.assets).2)

/-- `(*Asset).Readdir`: empty for a non-directory; otherwise every snapshot
entry whose name has this directory's name as a strict string prefix.  (The
Go method reads the package-global `assetFileSystem.assets`, i.e. the
current snapshot, which is passed here explicitly.) -/
def readdir (assets : List MAsset) (a : MAsset) : List MAsset :=
  if !a.isDir then []
  else assets.filter
    (fun x => a.AName.data.isPrefixOf x.AName.data &&
      decide (a.AName.length < x.AName.length))

/-- Go `strings.TrimPrefix`. -/
def trimPre (s pre : String) : String :=
  if pre.data.isPrefixOf s.data then String.mk (s.data.drop pre.data.length)
  else s

/-- `makeAsset` from `cmd/afs.go`: the file's bytes are optionally
zlib-compressed (`deflate` models `zlib.NewWriter`/`Write`/`Close`), then
base64-encoded; the name is
`filepath.Join("/", strings.TrimPrefix(path, source))`.  Reading the file
from disk is replaced by passing its byte list `data`. -/
def makeAsset (deflate : List Nat → List Nat) (compress : Bool)
    (source path : String) (data : List Nat) : RegAsset :=
  { AName := goJoin ["/", trimPre path source]
    Base64 := String.mk (b64encode (if compress then deflate data else data))
    NoZLib := !compress }

/-- A trivial inflate used for concrete executions with `NoZLib` assets. -/
def inflX : List Nat → Except String (List Nat) := fun b => Except.ok b

example :
    reload inflX ⟨[⟨"/a.txt", "aGk=", true⟩], []⟩ =
      (⟨[⟨"/a.txt", "aGk=", true⟩],
        [⟨"/a.txt", false, "hi", 2, 0⟩, mkDirAsset "/"]⟩, none) := by decide

/-! ## Claim C6: empty registry -/

theorem reload_empty_eq (inflate : List Nat → Except String (List Nat))
    (st : AFSState) (h : st.registry = []) :
    reload inflate st = (st, some "afs: no fs data registered") := by
  rw [reload, if_pos]
  rw [h]
  rfl

/-- C6: when the registry contains zero descriptors, `reload` fails
immediately with the empty-registry error and leaves the filesystem state
(including an `Uninitialized`, never-installed snapshot) completely
unchanged. -/
theorem reload_empty_registry (inflate : List Nat → Except String (List Nat))
    (st : AFSState) (h : st.registry = []) :
    reload inflate st = (st, some "afs: no fs data registered") :=
  reload_empty_eq inflate st h

/-- Witness for C6 at the `Uninitialized` state with an empty registry. -/
theorem reload_empty_registry_witness :
    reload inflX ⟨[], []⟩ = (⟨[], []⟩, some "afs: no fs data registered") :=
  reload_empty_registry inflX ⟨[], []⟩ rfl

/-! ## Claim C4: codec round trip -/

theorem toNat_ofNat_byte (b : Nat) (h : b < 256) : (Char.ofNat b).toNat = b := by
  have hv : b.isValidChar := Or.inl (by omega)
  simp [Char.ofNat, hv, Char.ofNatAux, Char.toNat, UInt32.toNat]

/-- The byte values of a byte-built string are the original bytes. -/
theorem strOfBytes_toBytes (data : List Nat) (h : ∀ b ∈ data, b < 256) :
    (strOfBytes data).data.map Char.toNat = data := by
  rw [strOfBytes, data_mk, List.map_map]
  have : ∀ b ∈ data, (Char.toNat ∘ Char.ofNat) b = id b := by
    intro b hb
    exact toNat_ofNat_byte b (h b hb)
  rw [List.map_congr_left this, List.map_id]

/-- C4: for every byte sequence and either value of the compression flag,
the reload engine's decode (base64 decode, then zlib inflation when the
descriptor is marked compressed) is the exact inverse of the generator's
encode (optional zlib compression, then base64): the decoded asset holds
exactly the original bytes.  zlib is external; its round-trip contract at
this input is the hypothesis `hzlib`, and `hcomp` says the compressed form
is made of bytes. -/
theorem codec_roundtrip (deflate : List Nat → List Nat)
    (inflate : List Nat → Except String (List Nat)) (compress : Bool)
    (source path : String) (data : List Nat)
    (hdata : ∀ b ∈ data, b < 256)
    (hzlib : inflate (deflate data) = Except.ok data)
    (hcomp : ∀ b ∈ deflate data, b < 256) :
    ∃ a, decodeAsset inflate (makeAsset deflate compress source path data) =
        Except.ok a ∧ a.content = strOfBytes data ∧
        a.content.data.map Char.toNat = data ∧ a.size = data.length ∧
        a.isDir = false := by
  cases compress with
  | false =>
    have hb : b64decode (b64encode data) = some data := b64_roundtrip data hdata
    have hm : makeAsset deflate false source path data =
        { AName := goJoin ["/", trimPre path source],
          Base64 := String.mk (b64encode data), NoZLib := true } := by
      simp [makeAsset]
    refine ⟨{ AName := fileNameClean (goJoin ["/", trimPre path source]),
              isDir := false, content := strOfBytes data,
              size := data.length, pos := 0 },
            ?_, rfl, strOfBytes_toBytes data hdata, rfl, rfl⟩
    rw [hm]
    simp only [decodeAsset, data_mk, hb]
    rfl
  | true =>
    have hb : b64decode (b64encode (deflate data)) = some (deflate data) :=
      b64_roundtrip (deflate data) hcomp
    have hm : makeAsset deflate true source path data =
        { AName := goJoin ["/", trimPre path source],
          Base64 := String.mk (b64encode (deflate data)), NoZLib := false } := by
      simp [makeAsset]
    refine ⟨{ AName := fileNameClean (goJoin ["/", trimPre path source]),
              isDir := false, content := strOfBytes data,
              size := data.length, pos := 0 },
            ?_, rfl, strOfBytes_toBytes data hdata, rfl, rfl⟩
    rw [hm]
    simp only [decodeAsset, data_mk, hb, hzlib]
    rfl

/-- Witness for C4: the bytes of "hi", compressed flag set, with the
identity standing in for the zlib pair. -/
theorem codec_roundtrip_witness :
    ∃ a, decodeAsset inflX (makeAsset id true "/src" "/src/a.txt" [104, 105]) =
        Except.ok a ∧ a.content = strOfBytes [104, 105] ∧
        a.content.data.map Char.toNat = [104, 105] ∧
        a.size = [104, 105].length ∧ a.isDir = false :=
  codec_roundtrip id inflX true "/src" "/src/a.txt" [104, 105]
    (by decide) rfl (by decide)

/-! ## Claim C5: directory listing -/

/-- Modelled from the claim's words: `n` lies strictly inside the subtree of
directory path `d`, segment-aware (for the root every other rooted name; for
any other directory, `d ++ "/"` must be a path-segment-respecting prefix of
`n`). -/
def segSubtree (d n : String) : Prop :=
  if d = "/" then n ≠ "/" ∧ n.data.head? = some '/'
  else (d ++ "/").data.isPrefixOf n.data = true

instance (d n : String) : Decidable (segSubtree d n) := by
  unfold segSubtree
  infer_instance

def regAX : RegAsset := ⟨"/a/x.txt", "", true⟩
def regAB : RegAsset := ⟨"/ab.txt", "", true⟩
def stC5 : AFSState := ⟨[regAX, regAB], []⟩

/-- C5 counterexample: after a successful reload of `/a/x.txt` and
`/ab.txt`, listing the synthesized directory `/a` includes `/ab.txt`, which
is NOT in `/a`'s segment-aware subtree — `Readdir` matches on plain string
prefixes, so the claim's "segment-aware" reading is false. -/
theorem readdir_not_segment_aware :
    (reload inflX stC5).2 = none ∧
    mkDirAsset "/a" ∈ (reload inflX stC5).1.assets ∧
    (∃ x ∈ readdir (reload inflX stC5).1.assets (mkDirAsset "/a"),
        x.AName = "/ab.txt" ∧ ¬ segSubtree "/a" x.AName) := by
  decide

/-- C5 (amended): listing a directory returns exactly the snapshot entries
whose name has the directory's path as a strict plain string prefix (longer
than it, byte-wise, not segment-aware), and nothing for a non-directory
entry (the right side is then false). -/
theorem readdir_mem (assets : List MAsset) (a x : MAsset) :
    x ∈ readdir assets a ↔
      (a.isDir = true ∧ x ∈ assets ∧
        a.AName.data.isPrefixOf x.AName.data = true ∧
        a.AName.length < x.AName.length) := by
  unfold readdir
  cases h : a.isDir with
  | false => simp [h]
  | true => simp [h, List.mem_filter, and_assoc]

/-! ## Claim C3: shared read cursor -/

def mAhi : MAsset := ⟨"/a.txt", false, "hi", 2, 0⟩
def snapC3 : List MAsset := [mAhi]

def c3s1 : List MAsset := (openAFS snapC3 "/a.txt").1
def c3s2 : List MAsset := (openAFS c3s1 "/a.txt").1
def c3s3 : List MAsset := (readH c3s2 "/a.txt" 1).1

/-- C3: opening `/a.txt` twice returns the same shared asset as both
handles (the Go code stores one `strings.Reader` in the asset's single
embedded field and returns a pointer to the asset).  After reading one byte
through the handle of the second open, the read position observed through
the first handle is 1, not 0: the cursors are not independent.  This
evaluates the code at the claim's failing input. -/
theorem open_handles_share_cursor :
    (openAFS snapC3 "/a.txt").2 = Except.ok "/a.txt" ∧
    (openAFS c3s1 "/a.txt").2 = Except.ok "/a.txt" ∧
    (readH c3s2 "/a.txt" 1).2 = ['h'] ∧
    posH c3s3 "/a.txt" = 1 := by
  decide

/-! ## Claim C9: template application is not atomic -/

/-- The successful run of `ExecTemplate`'s loop over a prefix of names. -/
def runTemplateOk (tmpl : String → String → Except String String) :
    List String → List MAsset → Option (List MAsset)
  | [], assets => some assets
  | n :: rest, assets =>
    match stepTemplate tmpl assets n with
    | Except.error _ => none
    | Except.ok assets' => runTemplateOk tmpl rest assets'

theorem execTemplate_append_ok (tmpl : String → String → Except String String) :
    ∀ (good : List String) (more : List String) (assets as1 : List MAsset),
    runTemplateOk tmpl good assets = some as1 →
    execTemplate tmpl (good ++ more) assets = execTemplate tmpl more as1 := by
  intro good
  induction good with
  | nil =>
    intro more assets as1 h
    simp only [runTemplateOk, Option.some.injEq] at h
    rw [← h]
    rfl
  | cons n rest ih =>
    intro more assets as1 h
    rw [runTemplateOk] at h
    cases hs : stepTemplate tmpl assets n with
    | error e => rw [hs] at h; exact absurd h (by simp)
    | ok assets' =>
      rw [hs] at h
      rw [List.cons_append, execTemplate, hs]
      exact ih more assets' as1 h

/-- C9: template application over a list of names is not atomic: when every
name in `good` processes successfully (yielding the partially-templated
snapshot `as1`) and the next name `bad` fails (absent, a directory, or a
parse/render error — all surfacing as `stepTemplate`'s error), the call
returns that error but the mutations applied for `good` remain installed in
the live snapshot. -/
theorem execTemplate_not_atomic (tmpl : String → String → Except String String)
    (good : List String) (bad : String) (rest : List String) (st : AFSState)
    (as1 : List MAsset) (e : String)
    (hgood : runTemplateOk tmpl good st.assets = some as1)
    (hbad : stepTemplate tmpl as1 bad = Except.error e) :
    execTemplateS tmpl (good ++ bad :: rest) st =
      ({ st with assets := as1 }, some e) := by
  unfold execTemplateS
  rw [execTemplate_append_ok tmpl good (bad :: rest) st.assets as1 hgood]
  simp only [execTemplate, hbad]

def tmplW : String → String → Except String String :=
  fun _ c => Except.ok (c ++ "!")

def stHi : AFSState :=
  ⟨[⟨"/a.txt", "aGk=", true⟩], [mAhi, mkDirAsset "/"]⟩

/-- Witness for C9: templating `/a.txt` succeeds and mutates it in place;
the following lookup of `/missing` fails; the mutation stays. -/
theorem execTemplate_not_atomic_witness :
    execTemplateS tmplW ["/a.txt", "/missing"] stHi =
      ({ stHi with assets := [⟨"/a.txt", false, "hi!", 3, 0⟩, mkDirAsset "/"] },
        some "afs: exec template: find asset: file does not exist") :=
  execTemplate_not_atomic tmplW ["/a.txt"] "/missing" [] stHi
    [⟨"/a.txt", false, "hi!", 3, 0⟩, mkDirAsset "/"]
    "afs: exec template: find asset: file does not exist"
    (by decide) (by decide)

/-! ## Claim C1: failed reload and the snapshot -/

def regGoodA : RegAsset := ⟨"/a.txt", "aGk=", true⟩
def regBad : RegAsset := ⟨"/bad", "!", true⟩
def stC1 : AFSState := ⟨[regGoodA, regBad], []⟩

/-- C1 counterexample: with a valid descriptor registered before a
corrupt-encoded one and a previously `Uninitialized` filesystem, the failed
reload returns an error but the snapshot does NOT equal the pre-reload
snapshot — `reload` replaced it before collecting — and a subsequent open of
the valid asset's name SUCCEEDS instead of failing with a not-found error. -/
theorem reload_failure_installs_partial_map :
    (reload inflX stC1).2.isSome = true ∧
    (reload inflX stC1).1.assets ≠ stC1.assets ∧
    (openAFS (reload inflX stC1).1.assets "/a.txt").2 = Except.ok "/a.txt" := by
  decide

/-- The successful decode-and-insert run over a prefix of the registry. -/
def decodeAll (inflate : List Nat → Except String (List Nat)) :
    List RegAsset → List MAsset → Option (List MAsset)
  | [], acc => some acc
  | r :: rest, acc =>
    match decodeAsset inflate r with
    | Except.error _ => none
    | Except.ok a => decodeAll inflate rest (insertA acc a)

theorem collect_append_ok (inflate : List Nat → Except String (List Nat)) :
    ∀ (pre rest : List RegAsset) (acc acc' : List MAsset),
    decodeAll inflate pre acc = some acc' →
    collect inflate (pre ++ rest) acc = collect inflate rest acc' := by
  intro pre
  induction pre with
  | nil =>
    intro rest acc acc' h
    simp only [decodeAll, Option.some.injEq] at h
    rw [← h]
    rfl
  | cons r prest ih =>
    intro rest acc acc' h
    rw [decodeAll] at h
    cases hd : decodeAsset inflate r with
    | error e => rw [hd] at h; exact absurd h (by simp)
    | ok a =>
      rw [hd] at h
      rw [List.cons_append, collect, hd]
      exact ih rest (insertA acc a) acc' h

/-- C1 (amended): when a descriptor fails to decode, `reload` returns an
error, but the snapshot does not remain unchanged: it has already been
replaced by a fresh map holding exactly the assets decoded before the
failure (no directory synthesis), so a subsequent open of a valid name
succeeds precisely when that asset was collected before the failure.  (The
Go channel order is nondeterministic; the model uses registration order.) -/
theorem reload_decode_error (inflate : List Nat → Except String (List Nat))
    (st : AFSState) (pre post : List RegAsset) (bad : RegAsset)
    (acc : List MAsset) (e : String)
    (hreg : st.registry = pre ++ bad :: post)
    (hpre : decodeAll inflate pre [] = some acc)
    (hbad : decodeAsset inflate bad = Except.error e) :
    reload inflate st = ({ st with assets := acc }, some ("asf: " ++ e)) := by
  rw [reload, if_neg (by rw [hreg]; simp)]
  rw [hreg, collect_append_ok inflate pre (bad :: post) [] acc hpre]
  simp only [collect, hbad]

/-- Witness for the amended C1 at the counterexample state: the partial map
holds the decoded `/a.txt` asset. -/
theorem reload_decode_error_witness :
    reload inflX stC1 = ({ stC1 with assets := [mAhi] },
      some "asf: decode asset /bad") :=
  reload_decode_error inflX stC1 [regGoodA] [] regBad [mAhi]
    "decode asset /bad" rfl (by decide) (by decide)

/-! ## Invariants of a successful reload -/

theorem lookupA_some (l : List MAsset) (name : String) (b : MAsset)
    (h : lookupA l name = some b) : b ∈ l ∧ b.AName = name := by
  unfold lookupA at h
  refine ⟨List.mem_of_find?_eq_some h, ?_⟩
  have := List.find?_some h
  simpa using this

theorem insertA_forall (P : MAsset → Prop) (l : List MAsset) (a : MAsset)
    (hl : ∀ b ∈ l, P b) (ha : P a) : ∀ b ∈ insertA l a, P b := by
  unfold insertA
  split_ifs with hc
  · intro b hb
    rw [List.mem_map] at hb
    obtain ⟨c, hcmem, rfl⟩ := hb
    by_cases he : c.AName = a.AName
    · rw [if_pos he]; exact ha
    · rw [if_neg he]; exact hl c hcmem
  · intro b hb
    rcases List.mem_append.mp hb with hmem | hmem
    · exact hl b hmem
    · rw [List.mem_singleton.mp hmem]; exact ha

theorem decodeAsset_ok (inflate : List Nat → Except String (List Nat))
    (r : RegAsset) (a : MAsset) (h : decodeAsset inflate r = Except.ok a) :
    a.isDir = false ∧ a.AName = fileNameClean r.AName ∧ a.pos = 0 := by
  simp only [decodeAsset] at h
  split at h
  · exact absurd h (by simp)
  · split at h
    · injection h with h2
      rw [← h2]
      exact ⟨rfl, rfl, rfl⟩
    · split at h
      · exact absurd h (by simp)
      · injection h with h2
        rw [← h2]
        exact ⟨rfl, rfl, rfl⟩

theorem collect_inv (inflate : List Nat → Except String (List Nat))
    (P : MAsset → Prop)
    (hP : ∀ r a, decodeAsset inflate r = Except.ok a → P a) :
    ∀ (reg : List RegAsset) (acc : List MAsset), (∀ b ∈ acc, P b) →
      ∀ b ∈ (collect inflate reg acc).1, P b := by
  intro reg
  induction reg with
  | nil =>
    intro acc hacc b hb
    simp only [collect] at hb
    exact hacc b hb
  | cons r rest ih =>
    intro acc hacc b hb
    rw [collect] at hb
    cases hd : decodeAsset inflate r with
    | error e => rw [hd] at hb; exact hacc b hb
    | ok a =>
      rw [hd] at hb
      exact ih (insertA acc a) (insertA_forall P acc a hacc (hP r a hd)) b hb

/-- All entries collected into the fresh map are files with canonical
normalized names and a zero read position. -/
theorem reload_collect_prop (inflate : List Nat → Except String (List Nat))
    (reg : List RegAsset) :
    ∀ b ∈ (collect inflate reg []).1,
      b.isDir = false ∧ Canonical b.AName.data ∧ b.pos = 0 := by
  refine collect_inv inflate _ ?_ reg [] (by simp)
  intro r a h
  obtain ⟨h1, h2, h3⟩ := decodeAsset_ok inflate r a h
  exact ⟨h1, by rw [h2]; exact fileNameClean_canonical r.AName, h3⟩

theorem goDir_canonical (q : String) (hq : Canonical q.data) :
    Canonical (goDir q).data := by
  obtain ⟨segs, _, he⟩ := hq
  have hhead : q.data.head? = some '/' := by rw [he]; exact canonOf_head segs
  obtain ⟨xs, hxs⟩ : ∃ xs, q.data = '/' :: xs := by
    cases hq2 : q.data with
    | nil => rw [hq2] at hhead; exact absurd hhead (by simp)
    | cons c cs =>
      rw [hq2] at hhead
      simp at hhead
      exact ⟨cs, by rw [hhead]⟩
  obtain ⟨ys, hys⟩ : ∃ ys, splitDir q.data = '/' :: ys := by
    rw [hxs, splitDir]
    by_cases hm : '/' ∈ xs
    · exact ⟨splitDir xs, by rw [if_pos hm]⟩
    · exact ⟨[], by rw [if_neg hm, if_pos rfl]⟩
  rw [goDir, data_mk, hys]
  exact cleanL_rooted_canonical ys

theorem fillDirsAux_append : ∀ (todo acc : List MAsset),
    ∃ ds, fillDirsAux todo acc = acc ++ ds ∧
      ∀ d ∈ ds, ∃ a ∈ todo, d = mkDirAsset (goDir a.AName) := by
  intro todo
  induction todo with
  | nil =>
    intro acc
    exact ⟨[], by simp [fillDirsAux], by simp⟩
  | cons a todo' ih =>
    intro acc
    by_cases hb : belong acc (goDir a.AName) = true
    · obtain ⟨ds, hds, hprop⟩ := ih acc
      refine ⟨ds, by rw [fillDirsAux, if_pos hb, hds], ?_⟩
      intro d hd
      obtain ⟨a', ha', he⟩ := hprop d hd
      exact ⟨a', List.mem_cons_of_mem _ ha', he⟩
    · obtain ⟨ds, hds, hprop⟩ := ih (acc ++ [mkDirAsset (goDir a.AName)])
      refine ⟨mkDirAsset (goDir a.AName) :: ds, ?_, ?_⟩
      · rw [fillDirsAux, if_neg hb, hds, List.append_assoc]
        rfl
      · intro d hd
        rcases List.mem_cons.mp hd with rfl | hmem
        · exact ⟨a, by simp, rfl⟩
        · obtain ⟨a', ha', he⟩ := hprop d hmem
          exact ⟨a', List.mem_cons_of_mem _ ha', he⟩

theorem fillDirsAux_parent : ∀ (todo acc : List MAsset),
    (∀ x ∈ todo, Canonical x.AName.data) →
    ∀ a ∈ todo, ∃ d ∈ fillDirsAux todo acc, d.AName = goDir a.AName := by
  intro todo
  induction todo with
  | nil =>
    intro acc _ a ha
    exact absurd ha (by simp)
  | cons t todo' ih =>
    intro acc hcan a ha
    have hdircanon : Canonical (goDir t.AName).data :=
      goDir_canonical _ (hcan t (by simp))
    by_cases hb : belong acc (goDir t.AName) = true
    · rw [fillDirsAux, if_pos hb]
      rcases List.mem_cons.mp ha with rfl | hmem
      · unfold belong at hb
        rw [fileNameClean_of_canonical _ hdircanon] at hb
        rw [Option.isSome_iff_exists] at hb
        obtain ⟨b, hbfind⟩ := hb
        obtain ⟨hbmem, hbname⟩ := lookupA_some acc _ b hbfind
        obtain ⟨ds, hds, _⟩ := fillDirsAux_append todo' acc
        exact ⟨b, by rw [hds]; exact List.mem_append_left _ hbmem, hbname⟩
      · exact ih acc (fun x hx => hcan x (by simp [hx])) a hmem
    · rw [fillDirsAux, if_neg hb]
      rcases List.mem_cons.mp ha with rfl | hmem
      · obtain ⟨ds, hds, _⟩ :=
          fillDirsAux_append todo' (acc ++ [mkDirAsset (goDir a.AName)])
        refine ⟨mkDirAsset (goDir a.AName), ?_, rfl⟩
        rw [hds]
        exact List.mem_append_left _ (List.mem_append_right _ (by simp))
      · exact ih _ (fun x hx => hcan x (by simp [hx])) a hmem

/-- Decomposition of a successful reload: the registry is untouched and the
snapshot is the collected map plus the directory pass. -/
theorem reload_ok (inflate : List Nat → Except String (List Nat))
    (st st' : AFSState) (h : reload inflate st = (st', none)) :
    ∃ acc, collect inflate st.registry [] = (acc, none) ∧
      st'.registry = st.registry ∧ st'.assets = fillDirsAux acc acc := by
  unfold reload at h
  by_cases he : st.registry.isEmpty = true
  · rw [if_pos he] at h
    injection h with _ h2
    exact absurd h2 (by simp)
  · rw [if_neg he] at h
    cases hc : collect inflate st.registry [] with
    | mk acc eo =>
      rw [hc] at h
      cases eo with
      | some e =>
        injection h with _ h2
        exact absurd h2 (by simp)
      | none =>
        refine ⟨acc, rfl, ?_, ?_⟩
        · injection h with h1 _
          rw [← h1]
        · injection h with h1 _
          rw [← h1]
          rfl

/-! ## Claim C2: directory synthesis depth -/

def regDeep : RegAsset := ⟨"/a/b/c.txt", "", true⟩
def stC2 : AFSState := ⟨[regDeep], []⟩

/-- C2 counterexample: reloading the single asset `/a/b/c.txt` succeeds, the
entry's normalized name has three segments beyond the root, but no entry
named `/a` exists in the snapshot: only the immediate parent `/a/b` is
synthesized, not every ancestor.  (Go's map-iteration rules allow the fill
pass to skip entries inserted during the pass; the model takes that
execution.) -/
theorem reload_misses_deep_ancestor :
    (reload inflX stC2).2 = none ∧
    (∃ a ∈ (reload inflX stC2).1.assets, a.AName = "/a/b/c.txt" ∧
      a.isDir = false) ∧
    (∀ d ∈ (reload inflX stC2).1.assets, d.AName ≠ "/a") := by
  decide

/-- C2 (amended): after a successful reload, every non-directory entry's
IMMEDIATE parent directory (its `path.Dir`) is present in the snapshot and
marked as a directory — provided no decoded file's name coincides with the
parent path of another entry (a file at such a name would be found by
`Belong` and suppress the synthetic directory).  Deeper missing ancestors,
and parents of the synthesized directories themselves, are not guaranteed. -/
theorem reload_parent_dirs (inflate : List Nat → Except String (List Nat))
    (st st' : AFSState) (h : reload inflate st = (st', none))
    (hnoshadow : ∀ a ∈ st'.assets, a.isDir = false →
      ∀ b ∈ st'.assets, b.isDir = false → goDir a.AName ≠ b.AName) :
    ∀ a ∈ st'.assets, a.isDir = false →
      ∃ d ∈ st'.assets, d.AName = goDir a.AName ∧ d.isDir = true := by
  obtain ⟨acc, hc, _, hassets⟩ := reload_ok inflate st st' h
  have hprops : ∀ b ∈ acc, b.isDir = false ∧ Canonical b.AName.data ∧ b.pos = 0 := by
    have := reload_collect_prop inflate st.registry
    rw [hc] at this
    exact this
  obtain ⟨ds, hds, hdsprop⟩ := fillDirsAux_append acc acc
  intro a ha hfile
  have hamem : a ∈ acc := by
    rw [hassets, hds] at ha
    rcases List.mem_append.mp ha with hmem | hmem
    · exact hmem
    · obtain ⟨_, _, he⟩ := hdsprop a hmem
      rw [he] at hfile
      exact absurd hfile (by simp [mkDirAsset])
  obtain ⟨d, hdmem, hdname⟩ :=
    fillDirsAux_parent acc acc (fun x hx => (hprops x hx).2.1) a hamem
  refine ⟨d, by rw [hassets]; exact hdmem, hdname, ?_⟩
  rw [hds] at hdmem
  rcases List.mem_append.mp hdmem with hmem | hmem
  · -- d was already collected: it is a file, contradicting `hnoshadow`
    exfalso
    have hdfile : d.isDir = false := (hprops d hmem).1
    refine hnoshadow a (by rw [hassets, hds]; exact List.mem_append_left _ hamem)
      hfile d (by rw [hassets, hds]; exact List.mem_append_left _ hmem) hdfile ?_
    rw [hdname]
  · obtain ⟨_, _, he⟩ := hdsprop d hmem
    rw [he]
    rfl

/-- Witness for the amended C2 at the deep-asset state: `/a/b/c.txt`'s
immediate parent `/a/b` exists and is a directory. -/
theorem reload_parent_dirs_witness :
    ∃ d ∈ (reload inflX stC2).1.assets, d.AName = goDir "/a/b/c.txt" ∧
      d.isDir = true :=
  reload_parent_dirs inflX stC2 (reload inflX stC2).1 (by decide) (by decide)
    ⟨"/a/b/c.txt", false, "", 0, 0⟩ (by decide) (by decide)

/-! ## Claim C10: opening synthesized directories -/

/-- C10: after a successful reload, opening any directory entry of the
snapshot does not fail: it returns a handle on that asset, whose readable
content is the directory's own normalized path string (the placeholder
stored at synthesis time) with `size` equal to that string's length. -/
theorem open_dir (inflate : List Nat → Except String (List Nat))
    (st st' : AFSState) (h : reload inflate st = (st', none)) :
    ∀ a ∈ st'.assets, a.isDir = true →
      (openAFS st'.assets a.AName).2 = Except.ok a.AName ∧
      a.content = a.AName ∧ a.size = a.AName.length := by
  obtain ⟨acc, hc, _, hassets⟩ := reload_ok inflate st st' h
  have hprops : ∀ b ∈ acc, b.isDir = false ∧ Canonical b.AName.data ∧ b.pos = 0 := by
    have := reload_collect_prop inflate st.registry
    rw [hc] at this
    exact this
  obtain ⟨ds, hds, hdsprop⟩ := fillDirsAux_append acc acc
  intro a ha hdir
  have hads : a ∈ ds := by
    rw [hassets, hds] at ha
    rcases List.mem_append.mp ha with hmem | hmem
    · rw [(hprops a hmem).1] at hdir
      exact absurd hdir (by simp)
    · exact hmem
  obtain ⟨p, hp, hpe⟩ := hdsprop a hads
  have hcanon : Canonical a.AName.data := by
    rw [hpe]
    exact goDir_canonical _ (hprops p hp).2.1
  have hopen : (openAFS st'.assets a.AName).2 = Except.ok a.AName := by
    have hfind : ∃ b, lookupA st'.assets a.AName = some b := by
      cases hf : lookupA st'.assets a.AName with
      | some b => exact ⟨b, rfl⟩
      | none =>
        exfalso
        unfold lookupA at hf
        have := List.find?_eq_none.mp hf a ha
        simp at this
    obtain ⟨b, hb⟩ := hfind
    have hbname : b.AName = a.AName := (lookupA_some _ _ _ hb).2
    simp only [openAFS, afsAsset, fileNameClean_of_canonical _ hcanon, hb]
    rw [hbname]
  exact ⟨hopen, by rw [hpe]; rfl, by rw [hpe]; rfl⟩

/-- Witness for C10: the synthesized directory `/a` of `stC5`'s snapshot
opens successfully with its own path as content. -/
theorem open_dir_witness :
    (openAFS (reload inflX stC5).1.assets (mkDirAsset "/a").AName).2 =
        Except.ok (mkDirAsset "/a").AName ∧
      (mkDirAsset "/a").content = (mkDirAsset "/a").AName ∧
      (mkDirAsset "/a").size = (mkDirAsset "/a").AName.length :=
  open_dir inflX stC5 (reload inflX stC5).1 (by decide) (mkDirAsset "/a")
    (by decide) (by decide)

/-! ## Claim C7: templating is an in-place snapshot mutation -/

theorem afsAsset_ok (assets : List MAsset) (n : String) (a : MAsset)
    (h : afsAsset assets n = Except.ok a) :
    lookupA assets (fileNameClean n) = some a := by
  unfold afsAsset at h
  split at h
  · exact absurd h (by simp)
  · rename_i b heqf
    injection h with h2
    rw [← h2]
    exact heqf

theorem stepTemplate_ok (tmpl : String → String → Except String String)
    (assets : List MAsset) (n : String) (assets' : List MAsset)
    (h : stepTemplate tmpl assets n = Except.ok assets') :
    ∃ a out, lookupA assets (fileNameClean n) = some a ∧
      assets' = insertA assets { a with content := out, size := out.length } := by
  simp only [stepTemplate] at h
  split at h
  · exact absurd h (by simp)
  · rename_i a ha
    split at h
    · exact absurd h (by simp)
    · split at h
      · exact absurd h (by simp)
      · rename_i out hout
        injection h with h2
        exact ⟨a, out, afsAsset_ok assets n a ha, h2.symm⟩

theorem insertA_names_of_mem (l : List MAsset) (a : MAsset)
    (h : ∃ b ∈ l, b.AName = a.AName) :
    (insertA l a).map (fun x => x.AName) = l.map (fun x => x.AName) := by
  unfold insertA
  rw [if_pos]
  · rw [List.map_map]
    apply List.map_congr_left
    intro b _
    by_cases he : b.AName = a.AName
    · simp [he]
    · simp [he]
  · rw [List.any_eq_true]
    obtain ⟨b, hb, he⟩ := h
    exact ⟨b, hb, by simp [he]⟩

/-- The set (and order) of names in the snapshot is unchanged by
`ExecTemplate`: only content and size are overwritten. -/
theorem execTemplate_names (tmpl : String → String → Except String String) :
    ∀ (names : List String) (assets : List MAsset),
      (execTemplate tmpl names assets).1.map (fun x => x.AName) =
        assets.map (fun x => x.AName) := by
  intro names
  induction names with
  | nil => intro assets; rfl
  | cons n rest ih =>
    intro assets
    rw [execTemplate]
    cases hs : stepTemplate tmpl assets n with
    | error e => rfl
    | ok assets' =>
      obtain ⟨a, out, hfind, he⟩ := stepTemplate_ok tmpl assets n assets' hs
      have hmem : ∃ b ∈ assets,
          b.AName = ({ a with content := out, size := out.length } : MAsset).AName := by
        obtain ⟨hm, hn⟩ := lookupA_some assets _ a hfind
        exact ⟨a, hm, rfl⟩
      rw [ih assets', he, insertA_names_of_mem assets _ hmem]

theorem reload_nonempty (inflate : List Nat → Except String (List Nat))
    (st : AFSState) (h : (reload inflate st).2 = none) : st.registry ≠ [] := by
  intro hnil
  rw [reload_empty_eq inflate st hnil] at h
  exact absurd h (by simp)

/-- `reload` depends only on the registry: two states with the same
(non-empty) registry reload to the same result. -/
theorem reload_congr (inflate : List Nat → Except String (List Nat))
    (s1 s2 : AFSState) (hreg : s1.registry = s2.registry)
    (hne : s2.registry ≠ []) :
    reload inflate s1 = reload inflate s2 := by
  obtain ⟨r1, a1⟩ := s1
  obtain ⟨r2, a2⟩ := s2
  simp only at hreg
  subst hreg
  have hie : r1.isEmpty = false := by
    rw [List.isEmpty_eq_false]
    exact hne
  unfold reload
  simp only [hie]
  cases collect inflate r1 [] with
  | mk acc eo =>
    cases eo <;> rfl

theorem insertA_mem_other (l : List MAsset) (a b : MAsset) (hb : b ∈ l)
    (hne : b.AName ≠ a.AName) : b ∈ insertA l a := by
  unfold insertA
  split_ifs with hc
  · rw [List.mem_map]
    exact ⟨b, hb, by rw [if_neg hne]⟩
  · exact List.mem_append_left _ hb

/-- Entries whose normalized name is not among the templated names are left
untouched by `ExecTemplate`. -/
theorem execTemplate_frame (tmpl : String → String → Except String String) :
    ∀ (names : List String) (assets : List MAsset) (b : MAsset), b ∈ assets →
      (∀ n ∈ names, b.AName ≠ fileNameClean n) →
      b ∈ (execTemplate tmpl names assets).1 := by
  intro names
  induction names with
  | nil => intro assets b hb _; exact hb
  | cons n rest ih =>
    intro assets b hb hnames
    rw [execTemplate]
    cases hs : stepTemplate tmpl assets n with
    | error e => exact hb
    | ok assets' =>
      obtain ⟨a, out, hfind, he⟩ := stepTemplate_ok tmpl assets n assets' hs
      have hname : a.AName = fileNameClean n := (lookupA_some _ _ _ hfind).2
      have hb' : b ∈ assets' := by
        rw [he]
        refine insertA_mem_other assets _ b hb ?_
        show b.AName ≠ a.AName
        rw [hname]
        exact hnames n (by simp)
      exact ih assets' b hb' (fun m hm => hnames m (by simp [hm]))

/-- C7: applying the template post-processor mutates only the live
snapshot's content/size: the registry is untouched, the snapshot keeps
exactly the same entry names, and a subsequent reload gives exactly what a
reload of the un-templated state gives — the originally-decoded,
non-templated content (for any template rendering and any name list). -/
theorem execTemplate_bypasses_registry
    (inflate : List Nat → Except String (List Nat))
    (tmpl : String → String → Except String String) (names : List String)
    (st : AFSState) (h : (reload inflate st).2 = none) :
    (execTemplateS tmpl names st).1.registry = st.registry ∧
    (execTemplateS tmpl names st).1.assets.map (fun x => x.AName) =
      st.assets.map (fun x => x.AName) ∧
    (∀ b ∈ st.assets, (∀ n ∈ names, b.AName ≠ fileNameClean n) →
      b ∈ (execTemplateS tmpl names st).1.assets) ∧
    reload inflate (execTemplateS tmpl names st).1 = reload inflate st := by
  refine ⟨rfl, execTemplate_names tmpl names st.assets, ?_, ?_⟩
  · intro b hb hn
    exact execTemplate_frame tmpl names st.assets b hb hn
  · exact reload_congr inflate _ st rfl (reload_nonempty inflate st h)

/-- Witness for C7: templating `/a.txt` in the loaded state, then checking
that the registry and name set are unchanged and a reload coincides with
reloading the pristine state. -/
theorem execTemplate_bypasses_registry_witness :
    (execTemplateS tmplW ["/a.txt"] stHi).1.registry = stHi.registry ∧
    (execTemplateS tmplW ["/a.txt"] stHi).1.assets.map (fun x => x.AName) =
      stHi.assets.map (fun x => x.AName) ∧
    (∀ b ∈ stHi.assets, (∀ n ∈ ["/a.txt"], b.AName ≠ fileNameClean n) →
      b ∈ (execTemplateS tmplW ["/a.txt"] stHi).1.assets) ∧
    reload inflX (execTemplateS tmplW ["/a.txt"] stHi).1 = reload inflX stHi :=
  execTemplate_bypasses_registry inflX tmplW ["/a.txt"] stHi (by decide)
